import Mathlib

/-!
Shallow embedding of the `embedded-nal` TCP stack abstraction
(src/stack/tcp.rs) and of the sharing wrapper described for the absent
src/stack/share.rs module, together with theorems about the blocking
write helper `write_str` of the `StackAndSocket` adapter.

Conventions of the embedding:
* `&mut self` receivers become explicit state passing: an operation on a
  stack with state type `S` and socket state type `K` consumes the states
  and returns the updated states next to its result.
* `nb::Result<T, E>` (that is, `Result<T, nb::Error<E>>`) becomes the
  three-case inductive `NbRes E T`.
* Byte slices `&[u8]` become `List B` over an arbitrary byte type `B`;
  `message.as_bytes()` is the identity of this representation, so
  `write_str` receives the byte list directly.
* Loops become fuel-indexed recursion returning `Option`: `none` means
  the fuel was exhausted before the loop finished, `some` is the value
  the Rust code returns.
-/

namespace EmbeddedNal

/-- Embedding of `nb::Result<T, E> = Result<T, nb::Error<E>>`:
`ready t` is `Ok(t)`, `wouldBlock` is `Err(nb::Error::WouldBlock)` and
`error e` is `Err(nb::Error::Other(e))`. -/
inductive NbRes (E T : Type) where
  | ready (t : T)
  | wouldBlock
  | error (e : E)
deriving DecidableEq

/-- Embedding of the `TcpClientStack` trait of src/stack/tcp.rs as a record
of state-passing operations: `S` is the stack state, `K` the socket state
(`Self::TcpSocket`), `E` the error type, `A` the remote address type
(`SocketAddr`) and `B` the byte type. `&mut` arguments are threaded through
the result; `is_connected` takes the socket by shared reference and hence
returns no updated socket; `close` takes the socket by value. -/
structure TcpClientStack (S K E A B : Type) where
  socket : S → S × Except E K
  connect : S → K → A → S × K × NbRes E Unit
  is_connected : S → K → S × Except E Bool
  send : S → K → List B → S × K × NbRes E Nat
  receive : S → K → List B → S × K × List B × NbRes E Nat
  close : S → K → S × Except E Unit

/-- Embedding of `impl<T: TcpClientStack> TcpClientStack for &mut T`
(src/stack/tcp.rs lines 92-132): every method forwards to `T`. -/
def refStack (T : TcpClientStack S K E A B) : TcpClientStack S K E A B where
  socket := fun s => T.socket s
  connect := fun s k remote => T.connect s k remote
  is_connected := fun s k => T.is_connected s k
  send := fun s k buffer => T.send s k buffer
  receive := fun s k buffer => T.receive s k buffer
  close := fun s k => T.close s k

/-- Embedding of `StackAndSocket::send` (src/stack/tcp.rs lines 183-185):
`self.tcp_stack.send(self.socket, buffer)`, a single forwarded call. -/
def StackAndSocket.send (T : TcpClientStack S K E A B) (s : S) (k : K)
    (buffer : List B) : S × K × NbRes E Nat :=
  T.send s k buffer

/-- Embedding of `nb::block!(self.tcp_stack.send(self.socket, buf))`:
retry the non-blocking send while it reports `WouldBlock`, stop at the
first `Ready` or `Other` error. The `Nat` argument is retry fuel; `none`
means the fuel ran out while the send still reported `WouldBlock`. -/
def blockSend (T : TcpClientStack S K E A B) :
    Nat → S → K → List B → Option (S × K × Except E Nat)
  | 0, _, _, _ => none
  | f + 1, s, k, buf =>
    match T.send s k buf with
    | (s', k', NbRes.ready n) => some (s', k', Except.ok n)
    | (s', k', NbRes.wouldBlock) => blockSend T f s' k' buf
    | (s', k', NbRes.error e) => some (s', k', Except.error e)

/-- Embedding of the loop body of `StackAndSocket::write_str`
(src/stack/tcp.rs lines 193-203), generalized over the current cursor:
while `cursor < message.len()`, run `nb::block!(send(&message[cursor..]))?`
and advance the cursor by the count it returned. `fo` is fuel for the
outer `while` loop, `fi` fuel for each inner `nb::block!` retry loop. -/
def writeStrAux (T : TcpClientStack S K E A B) (message : List B) :
    Nat → Nat → Nat → S → K → Option (S × K × Except E Unit)
  | 0, _, _, _, _ => none
  | fo + 1, fi, c, s, k =>
    if c < message.length then
      match blockSend T fi s k (message.drop c) with
      | none => none
      | some (s', k', Except.error e) => some (s', k', Except.error e)
      | some (s', k', Except.ok n) => writeStrAux T message fo fi (c + n) s' k'
    else
      some (s, k, Except.ok ())

/-- Embedding of `StackAndSocket::write_str` (src/stack/tcp.rs lines
188-204): run the write loop from cursor 0. -/
def write_str (T : TcpClientStack S K E A B) (fo fi : Nat) (s : S) (k : K)
    (message : List B) : Option (S × K × Except E Unit) :=
  writeStrAux T message fo fi 0 s k

/-- Instrumented variant of `blockSend` that additionally records, in
order, the buffer passed to every underlying `send` invocation it makes
(the log is returned even when the fuel runs out). -/
def blockSendLog (T : TcpClientStack S K E A B) :
    Nat → S → K → List B → List (List B) × Option (S × K × Except E Nat)
  | 0, _, _, _ => ([], none)
  | f + 1, s, k, buf =>
    match T.send s k buf with
    | (s', k', NbRes.ready n) => ([buf], some (s', k', Except.ok n))
    | (s', k', NbRes.wouldBlock) =>
        (buf :: (blockSendLog T f s' k' buf).1, (blockSendLog T f s' k' buf).2)
    | (s', k', NbRes.error e) => ([buf], some (s', k', Except.error e))

/-- Instrumented variant of `writeStrAux` that records, in order, the
buffer passed to every underlying `send` invocation made by the loop. -/
def writeStrLogAux (T : TcpClientStack S K E A B) (message : List B) :
    Nat → Nat → Nat → S → K → List (List B) × Option (S × K × Except E Unit)
  | 0, _, _, _, _ => ([], none)
  | fo + 1, fi, c, s, k =>
    if c < message.length then
      match blockSendLog T fi s k (message.drop c) with
      | (l, none) => (l, none)
      | (l, some (s', k', Except.error e)) => (l, some (s', k', Except.error e))
      | (l, some (s', k', Except.ok n)) =>
          (l ++ (writeStrLogAux T message fo fi (c + n) s' k').1,
           (writeStrLogAux T message fo fi (c + n) s' k').2)
    else
      ([], some (s, k, Except.ok ()))

/-- The call log of a full `write_str` run together with its outcome. -/
def writeStrLog (T : TcpClientStack S K E A B) (fo fi : Nat) (s : S) (k : K)
    (message : List B) : List (List B) × Option (S × K × Except E Unit) :=
  writeStrLogAux T message fo fi 0 s k

/-- Instrumented variant of `writeStrAux` that records the `(cursor, n)`
pair of every successful `nb::block!(send ...)` round of the loop. -/
def writeStrChunksAux (T : TcpClientStack S K E A B) (message : List B) :
    Nat → Nat → Nat → S → K → Option (S × K × List (Nat × Nat) × Except E Unit)
  | 0, _, _, _, _ => none
  | fo + 1, fi, c, s, k =>
    if c < message.length then
      match blockSend T fi s k (message.drop c) with
      | none => none
      | some (s', k', Except.error e) => some (s', k', [], Except.error e)
      | some (s', k', Except.ok n) =>
          match writeStrChunksAux T message fo fi (c + n) s' k' with
          | none => none
          | some (s'', k'', cs, r) => some (s'', k'', (c, n) :: cs, r)
    else
      some (s, k, [], Except.ok ())

/-- The chunk trace of a full `write_str` run. -/
def writeStrChunks (T : TcpClientStack S K E A B) (fo fi : Nat) (s : S)
    (k : K) (message : List B) : Option (S × K × List (Nat × Nat) × Except E Unit) :=
  writeStrChunksAux T message fo fi 0 s k

/-- Well-formedness of a chunk trace for a message of length `len` under a
per-call acceptance bound `Kb`, starting at cursor `c`: the chunks carry
consecutive cursors (each advanced by exactly the count the send reported),
every chunk's cursor is inside the message, every count is at most `Kb`,
and the trace ends only once the cursor has reached the end. -/
def chunksOk (Kb len : Nat) : Nat → List (Nat × Nat) → Bool
  | c, [] => decide (len ≤ c)
  | c, p :: rest =>
      decide (p.1 = c) && decide (c < len) && decide (p.2 ≤ Kb) &&
        chunksOk Kb len (c + p.2) rest

/-- Modelled from the spec: the sharing wrapper `SharableStack` /
`SharedStack` lives in src/stack/share.rs, which src/stack/mod.rs declares
and re-exports but which is absent from the sources. Per spec section 4.5
it hands out temporary exclusive, runtime-checked mutable borrows of the
one underlying stack; a second borrow attempted while one is live must
fail loudly and deterministically, and a borrow attempted after the
previous holder released must succeed. The model keeps the underlying
stack state next to a flag recording whether an exclusive borrow is live. -/
structure SharableStack (S : Type) where
  stack : S
  borrowed : Bool
deriving DecidableEq

/-- Modelled from the spec: attempt to take the exclusive runtime-checked
borrow of the shared stack. `none` is the loud deterministic failure
(panic or busy error) required when a borrow is already live; `some`
hands back the cell with the borrow marked live. -/
def tryAcquire (c : SharableStack S) : Option (SharableStack S) :=
  if c.borrowed then none else some { c with borrowed := true }

/-- Modelled from the spec: release the exclusive borrow at the end of
the one operation it was taken for. -/
def releaseBorrow (c : SharableStack S) : SharableStack S :=
  { c with borrowed := false }

/-- The observation `recv` reads off the bytes a fake stack has received
so far; under this hypothesis a successful `send` reporting `ready n`
appends exactly the first `n` bytes of the buffer it was passed. -/
def RecvReady (T : TcpClientStack S K E A B) (recv : S → K → List B) : Prop :=
  ∀ s k buf s' k' n, T.send s k buf = (s', k', NbRes.ready n) →
    recv s' k' = recv s k ++ buf.take n

/-- A `send` reporting `wouldBlock` receives nothing. -/
def RecvStay (T : TcpClientStack S K E A B) (recv : S → K → List B) : Prop :=
  ∀ s k buf s' k', T.send s k buf = (s', k', NbRes.wouldBlock) →
    recv s' k' = recv s k

/-- A `send` reporting an error receives nothing. -/
def RecvStayErr (T : TcpClientStack S K E A B) (recv : S → K → List B) : Prop :=
  ∀ s k buf s' k' e, T.send s k buf = (s', k', NbRes.error e) →
    recv s' k' = recv s k

/-- A stack model whose every `send` call immediately accepts some
`n ≤ Kb` bytes, reporting `ready n`: the fake stack of the specification
that accepts at most `Kb` bytes per call. -/
def AllReady (T : TcpClientStack S K E A B) (Kb : Nat) : Prop :=
  ∀ s k buf, ∃ s' k' n, T.send s k buf = (s', k', NbRes.ready n) ∧ n ≤ Kb

/-- A stack model whose every `send` call immediately accepts at least
one byte. -/
def AllReadyPos (T : TcpClientStack S K E A B) : Prop :=
  ∀ s k buf, ∃ s' k' n, T.send s k buf = (s', k', NbRes.ready n) ∧ 1 ≤ n

/-- Concrete fake stack accepting at most 2 bytes per `send` call: the
stack state is the list of bytes delivered so far, each call appends the
first `min 2 len` bytes of the buffer and reports that count as `ready`. -/
def collectStack : TcpClientStack (List Nat) Unit Unit Unit Nat where
  socket := fun s => (s, Except.ok ())
  connect := fun s k _ => (s, k, NbRes.ready ())
  is_connected := fun s _ => (s, Except.ok true)
  send := fun s k buf =>
    (s ++ buf.take (min 2 buf.length), k, NbRes.ready (min 2 buf.length))
  receive := fun s k buf => (s, k, buf, NbRes.ready 0)
  close := fun s _ => (s, Except.ok ())

/-- Concrete fake stack whose first `send` accepts one byte and whose
every later `send` fails: the state counts calls next to the list of
bytes delivered so far. -/
def okThenErrStack : TcpClientStack (Nat × List Nat) Unit Unit Unit Nat where
  socket := fun s => (s, Except.ok ())
  connect := fun s k _ => (s, k, NbRes.ready ())
  is_connected := fun s _ => (s, Except.ok true)
  send := fun s k buf =>
    if s.1 = 0 then ((1, s.2 ++ buf.take 1), k, NbRes.ready 1)
    else (s, k, NbRes.error ())
  receive := fun s k buf => (s, k, buf, NbRes.ready 0)
  close := fun s _ => (s, Except.ok ())

/-- Concrete stateless fake stack whose `send` always accepts exactly one
byte immediately. -/
def onesStack : TcpClientStack Unit Unit Unit Unit Nat where
  socket := fun s => (s, Except.ok ())
  connect := fun s k _ => (s, k, NbRes.ready ())
  is_connected := fun s _ => (s, Except.ok true)
  send := fun _ k _ => ((), k, NbRes.ready 1)
  receive := fun s k buf => (s, k, buf, NbRes.ready 0)
  close := fun s _ => (s, Except.ok ())

/-- Concrete fake stack delivering one byte per `send` call into its
list-of-bytes state. -/
def takeOneStack : TcpClientStack (List Nat) Unit Unit Unit Nat where
  socket := fun s => (s, Except.ok ())
  connect := fun s k _ => (s, k, NbRes.ready ())
  is_connected := fun s _ => (s, Except.ok true)
  send := fun s k buf => (s ++ buf.take 1, k, NbRes.ready 1)
  receive := fun s k buf => (s, k, buf, NbRes.ready 0)
  close := fun s _ => (s, Except.ok ())

/-- Concrete fake stack that writes at most one byte per `send` call and
counts in its state how many `send` calls were made. -/
def shortStack : TcpClientStack Nat Unit Unit Unit Nat where
  socket := fun s => (s, Except.ok ())
  connect := fun s k _ => (s, k, NbRes.ready ())
  is_connected := fun s _ => (s, Except.ok true)
  send := fun s k buf => (s + 1, k, NbRes.ready (min 1 buf.length))
  receive := fun s k buf => (s, k, buf, NbRes.ready 0)
  close := fun s _ => (s, Except.ok ())

/-- Concrete fake stack whose `send` always reports 5 bytes written, more
than any buffer the tests below pass it. -/
def overshootStack : TcpClientStack Unit Unit Unit Unit Nat where
  socket := fun s => (s, Except.ok ())
  connect := fun s k _ => (s, k, NbRes.ready ())
  is_connected := fun s _ => (s, Except.ok true)
  send := fun _ k _ => ((), k, NbRes.ready 5)
  receive := fun s k buf => (s, k, buf, NbRes.ready 0)
  close := fun s _ => (s, Except.ok ())

/-! Helper lemmas about the fuel-indexed runs. -/

/-- More retry fuel never changes a `nb::block!` round that already
finished. -/
theorem blockSend_mono (T : TcpClientStack S K E A B) :
    ∀ {f f' : Nat}, f ≤ f' → ∀ {s : S} {k : K} {buf : List B} {r},
      blockSend T f s k buf = some r → blockSend T f' s k buf = some r := by
  intro f
  induction f with
  | zero =>
      intro f' _ s k buf r hr
      simp [blockSend] at hr
  | succ f ih =>
      intro f' hle s k buf r hr
      obtain ⟨g, rfl⟩ : ∃ g, f' = g + 1 := ⟨f' - 1, by omega⟩
      rcases hT : T.send s k buf with ⟨s', k', res⟩
      cases res with
      | ready n =>
          simp only [blockSend, hT] at hr ⊢
          exact hr
      | wouldBlock =>
          simp only [blockSend, hT] at hr ⊢
          exact ih (by omega) hr
      | error e =>
          simp only [blockSend, hT] at hr ⊢
          exact hr

/-- More outer-loop fuel never changes a `write_str` run that already
finished. -/
theorem writeStrAux_mono_fo (T : TcpClientStack S K E A B) (message : List B) :
    ∀ {fo fo' : Nat}, fo ≤ fo' → ∀ {fi c : Nat} {s : S} {k : K} {r},
      writeStrAux T message fo fi c s k = some r →
      writeStrAux T message fo' fi c s k = some r := by
  intro fo
  induction fo with
  | zero =>
      intro fo' _ fi c s k r hr
      simp [writeStrAux] at hr
  | succ fo ih =>
      intro fo' hle fi c s k r hr
      obtain ⟨g, rfl⟩ : ∃ g, fo' = g + 1 := ⟨fo' - 1, by omega⟩
      by_cases hc : c < message.length
      · rcases hb : blockSend T fi s k (message.drop c) with _ | ⟨s', k', rb⟩
        · simp only [writeStrAux, if_pos hc, hb] at hr
          exact Option.noConfusion hr
        · cases rb with
          | error e =>
              simp only [writeStrAux, if_pos hc, hb] at hr ⊢
              exact hr
          | ok n =>
              simp only [writeStrAux, if_pos hc, hb] at hr ⊢
              exact ih (by omega) hr
      · simp only [writeStrAux, if_neg hc] at hr ⊢
        exact hr

/-- More retry fuel never changes a `write_str` run that already
finished. -/
theorem writeStrAux_mono_fi (T : TcpClientStack S K E A B) (message : List B) :
    ∀ {fo : Nat} {fi fi' : Nat}, fi ≤ fi' → ∀ {c : Nat} {s : S} {k : K} {r},
      writeStrAux T message fo fi c s k = some r →
      writeStrAux T message fo fi' c s k = some r := by
  intro fo
  induction fo with
  | zero =>
      intro fi fi' _ c s k r hr
      simp [writeStrAux] at hr
  | succ fo ih =>
      intro fi fi' hle c s k r hr
      by_cases hc : c < message.length
      · rcases hb : blockSend T fi s k (message.drop c) with _ | ⟨s', k', rb⟩
        · simp only [writeStrAux, if_pos hc, hb] at hr
          exact Option.noConfusion hr
        · have hb' := blockSend_mono T hle hb
          cases rb with
          | error e =>
              simp only [writeStrAux, if_pos hc, hb, hb'] at hr ⊢
              exact hr
          | ok n =>
              simp only [writeStrAux, if_pos hc, hb, hb'] at hr ⊢
              exact ih hle hr
      · simp only [writeStrAux, if_neg hc] at hr ⊢
        exact hr

/-- The instrumented `nb::block!` round computes the same outcome as the
plain one. -/
theorem blockSendLog_snd (T : TcpClientStack S K E A B) :
    ∀ (f : Nat) (s : S) (k : K) (buf : List B),
      (blockSendLog T f s k buf).2 = blockSend T f s k buf := by
  intro f
  induction f with
  | zero => intro s k buf; rfl
  | succ f ih =>
      intro s k buf
      rcases hT : T.send s k buf with ⟨s', k', res⟩
      cases res with
      | ready n => simp only [blockSendLog, blockSend, hT]
      | wouldBlock =>
          simp only [blockSendLog, blockSend, hT]
          exact ih s' k' buf
      | error e => simp only [blockSendLog, blockSend, hT]

/-- The instrumented write loop computes the same outcome as the plain
one. -/
theorem writeStrLogAux_snd (T : TcpClientStack S K E A B) (message : List B) :
    ∀ (fo fi c : Nat) (s : S) (k : K),
      (writeStrLogAux T message fo fi c s k).2 =
        writeStrAux T message fo fi c s k := by
  intro fo
  induction fo with
  | zero => intro fi c s k; rfl
  | succ fo ih =>
      intro fi c s k
      by_cases hc : c < message.length
      · have hlog := blockSendLog_snd T fi s k (message.drop c)
        rcases hb : blockSendLog T fi s k (message.drop c) with ⟨l, ro⟩
        have hbs : blockSend T fi s k (message.drop c) = ro := by
          rw [← hlog, hb]
        rcases ro with _ | ⟨s', k', rb⟩
        · simp only [writeStrLogAux, writeStrAux, if_pos hc, hb, hbs]
        · cases rb with
          | error e => simp only [writeStrLogAux, writeStrAux, if_pos hc, hb, hbs]
          | ok n =>
              simp only [writeStrLogAux, writeStrAux, if_pos hc, hb, hbs]
              exact ih fi (c + n) s' k'
      · simp only [writeStrLogAux, writeStrAux, if_neg hc]

/-- Every buffer a `nb::block!` round passes to the underlying `send` is
the one buffer the round was started with. -/
theorem blockSendLog_mem (T : TcpClientStack S K E A B) :
    ∀ (f : Nat) (s : S) (k : K) (buf x : List B),
      x ∈ (blockSendLog T f s k buf).1 → x = buf := by
  intro f
  induction f with
  | zero => intro s k buf x hx; simp [blockSendLog] at hx
  | succ f ih =>
      intro s k buf x hx
      rcases hT : T.send s k buf with ⟨s', k', res⟩
      cases res with
      | ready n =>
          simp only [blockSendLog, hT, List.mem_singleton] at hx
          exact hx
      | wouldBlock =>
          simp only [blockSendLog, hT, List.mem_cons] at hx
          rcases hx with hx | hx
          · exact hx
          · exact ih s' k' buf x hx
      | error e =>
          simp only [blockSendLog, hT, List.mem_singleton] at hx
          exact hx

/-- A `nb::block!` round that finished made at least one `send` call. -/
theorem blockSendLog_ne_nil (T : TcpClientStack S K E A B) :
    ∀ (f : Nat) (s : S) (k : K) (buf : List B) (r : S × K × Except E Nat),
      (blockSendLog T f s k buf).2 = some r →
      (blockSendLog T f s k buf).1 ≠ [] := by
  intro f
  induction f with
  | zero => intro s k buf r hr; simp [blockSendLog] at hr
  | succ f ih =>
      intro s k buf r hr
      rcases hT : T.send s k buf with ⟨s', k', res⟩
      cases res with
      | ready n => simp [blockSendLog, hT]
      | wouldBlock => simp [blockSendLog, hT]
      | error e => simp [blockSendLog, hT]

/-- The last `send` call of a finished `nb::block!` round passed the
round's buffer. -/
theorem blockSendLog_getLast (T : TcpClientStack S K E A B) (f : Nat) (s : S)
    (k : K) (buf : List B) (r : S × K × Except E Nat)
    (hr : (blockSendLog T f s k buf).2 = some r) :
    (blockSendLog T f s k buf).1.getLast? = some buf := by
  have hne := blockSendLog_ne_nil T f s k buf r hr
  have hmem : (blockSendLog T f s k buf).1.getLast hne ∈ (blockSendLog T f s k buf).1 :=
    List.getLast_mem hne
  have hx := blockSendLog_mem T f s k buf _ hmem
  rw [List.getLast?_eq_getLast _ hne, hx]

/-- A successful `nb::block!` round delivers exactly the first `n` bytes
of its buffer to the fake stack's receive side. -/
theorem blockSend_ok_recv (T : TcpClientStack S K E A B) (recv : S → K → List B)
    (hR : RecvReady T recv) (hW : RecvStay T recv) :
    ∀ (f : Nat) (s : S) (k : K) (buf : List B) (s' : S) (k' : K) (n : Nat),
      blockSend T f s k buf = some (s', k', Except.ok n) →
      recv s' k' = recv s k ++ buf.take n := by
  intro f
  induction f with
  | zero => intro s k buf s' k' n hr; simp [blockSend] at hr
  | succ f ih =>
      intro s k buf s' k' n hr
      rcases hT : T.send s k buf with ⟨s₁, k₁, res⟩
      cases res with
      | ready m =>
          simp only [blockSend, hT, Option.some.injEq, Prod.mk.injEq,
            Except.ok.injEq] at hr
          obtain ⟨rfl, rfl, rfl⟩ := hr
          exact hR _ _ _ _ _ _ hT
      | wouldBlock =>
          simp only [blockSend, hT] at hr
          rw [ih s₁ k₁ buf s' k' n hr, hW _ _ _ _ _ hT]
      | error e =>
          simp only [blockSend, hT, Option.some.injEq, Prod.mk.injEq] at hr
          exact absurd hr.2.2 (by simp)

/-- A successful `nb::block!` round gets its count from an underlying
`send` invocation that reported `ready` with that count. -/
theorem blockSend_ok_src (T : TcpClientStack S K E A B) :
    ∀ (f : Nat) (s : S) (k : K) (buf : List B) (s' : S) (k' : K) (n : Nat),
      blockSend T f s k buf = some (s', k', Except.ok n) →
      ∃ s₀ k₀, T.send s₀ k₀ buf = (s', k', NbRes.ready n) := by
  intro f
  induction f with
  | zero => intro s k buf s' k' n hr; simp [blockSend] at hr
  | succ f ih =>
      intro s k buf s' k' n hr
      rcases hT : T.send s k buf with ⟨s₁, k₁, res⟩
      cases res with
      | ready m =>
          simp only [blockSend, hT, Option.some.injEq, Prod.mk.injEq,
            Except.ok.injEq] at hr
          obtain ⟨rfl, rfl, rfl⟩ := hr
          exact ⟨s, k, hT⟩
      | wouldBlock =>
          simp only [blockSend, hT] at hr
          exact ih s₁ k₁ buf s' k' n hr
      | error e =>
          simp only [blockSend, hT, Option.some.injEq, Prod.mk.injEq] at hr
          exact absurd hr.2.2 (by simp)

/-- A `nb::block!` round ending in an error delivered nothing, and its
error and final state come from an underlying `send` invocation that
reported that error, made when nothing new had been received yet. -/
theorem blockSend_error_recv (T : TcpClientStack S K E A B) (recv : S → K → List B)
    (hW : RecvStay T recv) (hE : RecvStayErr T recv) :
    ∀ (f : Nat) (s : S) (k : K) (buf : List B) (s' : S) (k' : K) (e : E),
      blockSend T f s k buf = some (s', k', Except.error e) →
      recv s' k' = recv s k ∧
      ∃ s₀ k₀, recv s₀ k₀ = recv s k ∧
        T.send s₀ k₀ buf = (s', k', NbRes.error e) := by
  intro f
  induction f with
  | zero => intro s k buf s' k' e hr; simp [blockSend] at hr
  | succ f ih =>
      intro s k buf s' k' e hr
      rcases hT : T.send s k buf with ⟨s₁, k₁, res⟩
      cases res with
      | ready m =>
          simp only [blockSend, hT, Option.some.injEq, Prod.mk.injEq] at hr
          exact absurd hr.2.2 (by simp)
      | wouldBlock =>
          simp only [blockSend, hT] at hr
          obtain ⟨h1, s₀, k₀, h2, h3⟩ := ih s₁ k₁ buf s' k' e hr
          have hstay := hW _ _ _ _ _ hT
          exact ⟨by rw [h1, hstay], s₀, k₀, by rw [h2, hstay], h3⟩
      | error e₁ =>
          simp only [blockSend, hT, Option.some.injEq, Prod.mk.injEq,
            Except.error.injEq] at hr
          obtain ⟨rfl, rfl, rfl⟩ := hr
          exact ⟨hE _ _ _ _ _ _ hT, s, k, rfl, hT⟩

/-- Against an always-ready stack, a `nb::block!` round with positive
fuel is a single `send` call returning that call's count. -/
theorem blockSend_of_allReady (T : TcpClientStack S K E A B) (Kb : Nat)
    (hready : AllReady T Kb) (g : Nat) (s : S) (k : K) (buf : List B) :
    ∃ s' k' n, T.send s k buf = (s', k', NbRes.ready n) ∧ n ≤ Kb ∧
      blockSend T (g + 1) s k buf = some (s', k', Except.ok n) ∧
      (blockSendLog T (g + 1) s k buf).1 = [buf] := by
  obtain ⟨s', k', n, hT, hn⟩ := hready s k buf
  exact ⟨s', k', n, hT, hn, by simp [blockSend, hT], by simp [blockSendLog, hT]⟩

/-- Invariant behind claim C1: against an always-ready stack that accepts
at most `Kb` bytes per call, a write loop run from cursor `c` that
returns `Ok(())` delivered exactly the remaining bytes, through a
well-formed chunk trace, passing `message[cursor..]` exactly once per
chunk. -/
theorem writeStrAux_ok_spec (T : TcpClientStack S K E A B) (message : List B)
    (recv : S → K → List B) (Kb : Nat)
    (hready : AllReady T Kb) (hR : RecvReady T recv) :
    ∀ (fo fi c : Nat) (s : S) (k : K) (s' : S) (k' : K),
      writeStrAux T message fo fi c s k = some (s', k', Except.ok ()) →
      recv s' k' = recv s k ++ message.drop c ∧
      ∃ cs, writeStrChunksAux T message fo fi c s k = some (s', k', cs, Except.ok ()) ∧
        chunksOk Kb message.length c cs = true ∧
        (writeStrLogAux T message fo fi c s k).1 =
          cs.map fun p => message.drop p.1 := by
  intro fo
  induction fo with
  | zero =>
      intro fi c s k s' k' hr
      simp [writeStrAux] at hr
  | succ fo ih =>
      intro fi c s k s' k' hr
      by_cases hc : c < message.length
      · cases fi with
        | zero =>
            simp only [writeStrAux, if_pos hc, blockSend] at hr
            exact Option.noConfusion hr
        | succ g =>
            obtain ⟨s₁, k₁, n, hT, hn, hbs, hlog⟩ :=
              blockSend_of_allReady T Kb hready g s k (message.drop c)
            have hr' : writeStrAux T message fo (g + 1) (c + n) s₁ k₁ =
                some (s', k', Except.ok ()) := by
              simpa only [writeStrAux, if_pos hc, hbs] using hr
            obtain ⟨hrecv, cs, hcs, hok, hlg⟩ := ih (g + 1) (c + n) s₁ k₁ s' k' hr'
            have hdd : message.drop (c + n) = (message.drop c).drop n := by
              rw [List.drop_drop, Nat.add_comm]
            have hbl : blockSendLog T (g + 1) s k (message.drop c) =
                ([message.drop c], some (s₁, k₁, Except.ok n)) := by
              have h2 : (blockSendLog T (g + 1) s k (message.drop c)).2 =
                  some (s₁, k₁, Except.ok n) := by
                rw [blockSendLog_snd, hbs]
              exact Prod.ext hlog h2
            refine ⟨?_, (c, n) :: cs, ?_, ?_, ?_⟩
            · rw [hrecv, hR _ _ _ _ _ _ hT, hdd, List.append_assoc,
                List.take_append_drop]
            · simp only [writeStrChunksAux, if_pos hc, hbs, hcs]
            · simp [chunksOk, hok, hc, hn]
            · simp only [writeStrLogAux, if_pos hc, hbl, hlg]
              simp
      · simp only [writeStrAux, if_neg hc, Option.some.injEq, Prod.mk.injEq] at hr
        obtain ⟨rfl, rfl, -⟩ := hr
        have hdrop : message.drop c = [] :=
          List.drop_eq_nil_of_le (by omega)
        refine ⟨by simp [hdrop], [], ?_, ?_, ?_⟩
        · simp only [writeStrChunksAux, if_neg hc]
        · simp only [chunksOk]
          simp; omega
        · simp only [writeStrLogAux, if_neg hc]
          simp

/-- Invariant behind claim C2: a write loop run from cursor `c` that
returns `Err(e)` got that error and its final state from one underlying
`send` invocation at some cursor `cf`, delivered exactly the bytes
between the two cursors beforehand, and that invocation was the last
`send` call the loop made. -/
theorem writeStrAux_error_spec (T : TcpClientStack S K E A B) (message : List B)
    (recv : S → K → List B)
    (hR : RecvReady T recv) (hW : RecvStay T recv) (hE : RecvStayErr T recv) :
    ∀ (fo fi c : Nat) (s : S) (k : K) (s' : S) (k' : K) (e : E),
      writeStrAux T message fo fi c s k = some (s', k', Except.error e) →
      ∃ cf s₀ k₀, c ≤ cf ∧ cf < message.length ∧
        T.send s₀ k₀ (message.drop cf) = (s', k', NbRes.error e) ∧
        recv s' k' = recv s k ++ (message.drop c).take (cf - c) ∧
        (writeStrLogAux T message fo fi c s k).1.getLast? =
          some (message.drop cf) := by
  intro fo
  induction fo with
  | zero =>
      intro fi c s k s' k' e hr
      simp [writeStrAux] at hr
  | succ fo ih =>
      intro fi c s k s' k' e hr
      by_cases hc : c < message.length
      · have hlog := blockSendLog_snd T fi s k (message.drop c)
        rcases hb : blockSend T fi s k (message.drop c) with _ | ⟨s₁, k₁, rb⟩
        · simp only [writeStrAux, if_pos hc, hb] at hr
          exact Option.noConfusion hr
        · have hbl2 : (blockSendLog T fi s k (message.drop c)).2 =
              some (s₁, k₁, rb) := by rw [hlog, hb]
          rcases hblp : blockSendLog T fi s k (message.drop c) with ⟨l, ro⟩
          have hro : ro = some (s₁, k₁, rb) := by
            rw [hblp] at hbl2; exact hbl2
          subst hro
          cases rb with
          | error e₁ =>
              obtain ⟨hstay, s₀, k₀, hs₀, hsend⟩ :=
                blockSend_error_recv T recv hW hE fi s k (message.drop c) s₁ k₁ e₁ hb
              simp only [writeStrAux, if_pos hc, hb, Option.some.injEq,
                Prod.mk.injEq, Except.error.injEq] at hr
              obtain ⟨rfl, rfl, rfl⟩ := hr
              refine ⟨c, s₀, k₀, le_refl c, hc, hsend, ?_, ?_⟩
              · simp [hstay]
              · have hlast : l.getLast? = some (message.drop c) := by
                  have := blockSendLog_getLast T fi s k (message.drop c) _ hbl2
                  rw [hblp] at this
                  exact this
                simp only [writeStrLogAux, if_pos hc, hblp]
                exact hlast
          | ok n =>
              have hr' : writeStrAux T message fo fi (c + n) s₁ k₁ =
                  some (s', k', Except.error e) := by
                simpa only [writeStrAux, if_pos hc, hb] using hr
              obtain ⟨cf, s₀, k₀, hcf1, hcf2, hsend, hrecv, hlast⟩ :=
                ih fi (c + n) s₁ k₁ s' k' e hr'
              have hdel : recv s₁ k₁ = recv s k ++ (message.drop c).take n :=
                blockSend_ok_recv T recv hR hW fi s k (message.drop c) s₁ k₁ n hb
              refine ⟨cf, s₀, k₀, by omega, hcf2, hsend, ?_, ?_⟩
              · have hdd : message.drop (c + n) = (message.drop c).drop n := by
                  rw [List.drop_drop, Nat.add_comm]
                rw [hrecv, hdel, hdd, List.append_assoc, ← List.take_add]
                congr 2
                omega
              · have hne : (writeStrLogAux T message fo fi (c + n) s₁ k₁).1 ≠ [] := by
                  intro hnil
                  rw [hnil] at hlast
                  exact Option.noConfusion hlast
                simp only [writeStrLogAux, if_pos hc, hblp]
                rw [List.getLast?_append_of_ne_nil _ hne]
                exact hlast
      · simp only [writeStrAux, if_neg hc, Option.some.injEq, Prod.mk.injEq] at hr
        exact absurd hr.2.2 (by simp)

/-- Invariant behind claim C3: if every `nb::block!` round resolves with
some finite retry fuel and every reported count is positive, the write
loop finishes with fuel bounded by the remaining byte count. -/
theorem writeStrAux_term (T : TcpClientStack S K E A B) (message : List B)
    (hfin : ∀ (s : S) (k : K) (buf : List B), ∃ f, blockSend T f s k buf ≠ none)
    (hpos : ∀ (s : S) (k : K) (buf : List B) (s' : S) (k' : K) (n : Nat),
      T.send s k buf = (s', k', NbRes.ready n) → 1 ≤ n) :
    ∀ (d c : Nat) (s : S) (k : K), message.length - c ≤ d →
      ∃ fo fi, writeStrAux T message fo fi c s k ≠ none := by
  intro d
  induction d with
  | zero =>
      intro c s k hd
      have hc : ¬ c < message.length := by omega
      exact ⟨1, 0, by simp [writeStrAux, if_neg hc]⟩
  | succ d ih =>
      intro c s k hd
      by_cases hc : c < message.length
      · obtain ⟨f, hf⟩ := hfin s k (message.drop c)
        rcases hb : blockSend T f s k (message.drop c) with _ | ⟨s₁, k₁, rb⟩
        · exact absurd hb hf
        · cases rb with
          | error e =>
              exact ⟨1, f, by simp [writeStrAux, if_pos hc, hb]⟩
          | ok n =>
              have hn : 1 ≤ n := by
                obtain ⟨s₀, k₀, hsrc⟩ :=
                  blockSend_ok_src T f s k (message.drop c) s₁ k₁ n hb
                exact hpos _ _ _ _ _ _ hsrc
              obtain ⟨fo', fi', hrec⟩ := ih (c + n) s₁ k₁ (by omega)
              rcases hrec' : writeStrAux T message fo' fi' (c + n) s₁ k₁ with _ | r
              · exact absurd hrec' hrec
              · have hb' : blockSend T (max f fi') s k (message.drop c) =
                    some (s₁, k₁, Except.ok n) :=
                  blockSend_mono T (le_max_left f fi') hb
                have hrec2 : writeStrAux T message fo' (max f fi') (c + n) s₁ k₁ =
                    some r :=
                  writeStrAux_mono_fi T message (le_max_right f fi') hrec'
                exact ⟨fo' + 1, max f fi',
                  by simp [writeStrAux, if_pos hc, hb', hrec2]⟩
      · exact ⟨1, 0, by simp [writeStrAux, if_neg hc]⟩

/-- Invariant behind the amended claim C4: against a stack whose every
`send` immediately accepts at least one byte, the write loop run from
cursor `c` finishes with `Ok(())` using one unit of retry fuel and outer
fuel one more than the remaining byte count, delivering the remaining
bytes. -/
theorem writeStrAux_allReadyPos (T : TcpClientStack S K E A B) (message : List B)
    (recv : S → K → List B)
    (hready : AllReadyPos T) (hR : RecvReady T recv) :
    ∀ (d c : Nat) (s : S) (k : K), message.length - c ≤ d →
      ∃ s' k', writeStrAux T message (d + 1) 1 c s k = some (s', k', Except.ok ()) ∧
        recv s' k' = recv s k ++ message.drop c := by
  intro d
  induction d with
  | zero =>
      intro c s k hd
      have hc : ¬ c < message.length := by omega
      have hdrop : message.drop c = [] := List.drop_eq_nil_of_le (by omega)
      exact ⟨s, k, by simp [writeStrAux, if_neg hc], by simp [hdrop]⟩
  | succ d ih =>
      intro c s k hd
      by_cases hc : c < message.length
      · obtain ⟨s₁, k₁, n, hT, hn⟩ := hready s k (message.drop c)
        have hb : blockSend T 1 s k (message.drop c) =
            some (s₁, k₁, Except.ok n) := by
          simp [blockSend, hT]
        obtain ⟨s', k', hrec, hrecv⟩ := ih (c + n) s₁ k₁ (by omega)
        refine ⟨s', k', ?_, ?_⟩
        · simpa only [writeStrAux, if_pos hc, hb] using hrec
        · have hdd : message.drop (c + n) = (message.drop c).drop n := by
            rw [List.drop_drop, Nat.add_comm]
          rw [hrecv, hR _ _ _ _ _ _ hT, hdd, List.append_assoc,
            List.take_append_drop]
      · have hdrop : message.drop c = [] := List.drop_eq_nil_of_le (by omega)
        exact ⟨s, k, by simp [writeStrAux, if_neg hc], by simp [hdrop]⟩

/-- Invariant behind claim C9: every buffer the write loop ever passes to
the underlying `send` is `message[cf..]` for a cursor `cf` strictly inside
the message, whatever the stack does and however much fuel there is. -/
theorem writeStrLogAux_mem (T : TcpClientStack S K E A B) (message : List B) :
    ∀ (fo fi c : Nat) (s : S) (k : K) (buf : List B),
      buf ∈ (writeStrLogAux T message fo fi c s k).1 →
      ∃ cf, cf < message.length ∧ buf = message.drop cf := by
  intro fo
  induction fo with
  | zero =>
      intro fi c s k buf h
      simp [writeStrLogAux] at h
  | succ fo ih =>
      intro fi c s k buf h
      by_cases hc : c < message.length
      · rcases hbl : blockSendLog T fi s k (message.drop c) with ⟨l, ro⟩
        have hmem : ∀ x ∈ l, x = message.drop c := by
          intro x hx
          have hall := blockSendLog_mem T fi s k (message.drop c) x
          rw [hbl] at hall
          exact hall hx
        rcases ro with _ | ⟨s₁, k₁, rb⟩
        · simp only [writeStrLogAux, if_pos hc, hbl] at h
          exact ⟨c, hc, hmem buf h⟩
        · cases rb with
          | error e =>
              simp only [writeStrLogAux, if_pos hc, hbl] at h
              exact ⟨c, hc, hmem buf h⟩
          | ok n =>
              simp only [writeStrLogAux, if_pos hc, hbl, List.mem_append] at h
              rcases h with h | h
              · exact ⟨c, hc, hmem buf h⟩
              · exact ih fi (c + n) s₁ k₁ buf h
      · simp only [writeStrLogAux, if_neg hc, List.not_mem_nil] at h

/-! Claim theorems. -/

/-- Claim C1: for every stack model whose every `send` call immediately
accepts at most `Kb` bytes (returning `ready n` with `n ≤ Kb`) and whose
receive side grows by exactly the accepted prefix of the passed buffer, a
`write_str` run returning `Ok(())` delivers exactly the concatenation of
the original message bytes, as in-order sub-slices `message[cursor..]`
whose cursor starts at 0 and advances by exactly the count each send
reported, no chunk resent out of order and no call passed more than the
remaining bytes. -/
theorem write_str_delivers_exact (T : TcpClientStack S K E A B)
    (recv : S → K → List B) (Kb : Nat)
    (hready : AllReady T Kb) (hR : RecvReady T recv)
    (fo fi : Nat) (s : S) (k : K) (message : List B) (s' : S) (k' : K)
    (h : write_str T fo fi s k message = some (s', k', Except.ok ())) :
    recv s' k' = recv s k ++ message ∧
    ∃ cs, writeStrChunks T fo fi s k message = some (s', k', cs, Except.ok ()) ∧
      chunksOk Kb message.length 0 cs = true ∧
      (writeStrLog T fo fi s k message).1 = cs.map fun p => message.drop p.1 := by
  have hmain := writeStrAux_ok_spec T message recv Kb hready hR fo fi 0 s k s' k' h
  simpa [writeStrChunks, writeStrLog] using hmain

/-- Witness for claim C1 on the concrete 2-bytes-per-call fake stack and
the five-byte message 1..5. -/
theorem write_str_delivers_exact_witness :
    AllReady collectStack 2 ∧
    RecvReady collectStack (fun s _ => s) ∧
    write_str collectStack 4 1 [] () [1, 2, 3, 4, 5] =
      some ([1, 2, 3, 4, 5], (), Except.ok ()) ∧
    (([1, 2, 3, 4, 5] : List Nat) = [] ++ [1, 2, 3, 4, 5] ∧
      ∃ cs, writeStrChunks collectStack 4 1 [] () [1, 2, 3, 4, 5] =
          some ([1, 2, 3, 4, 5], (), cs, Except.ok ()) ∧
        chunksOk 2 ([1, 2, 3, 4, 5] : List Nat).length 0 cs = true ∧
        (writeStrLog collectStack 4 1 [] () [1, 2, 3, 4, 5]).1 =
          cs.map fun p => ([1, 2, 3, 4, 5] : List Nat).drop p.1) := by
  have hready : AllReady collectStack 2 := fun s k buf =>
    ⟨s ++ buf.take (min 2 buf.length), k, min 2 buf.length, rfl,
      Nat.min_le_left 2 _⟩
  have hR : RecvReady collectStack (fun s _ => s) := by
    intro s k buf s' k' n hT
    simp only [collectStack, Prod.mk.injEq, NbRes.ready.injEq] at hT
    obtain ⟨rfl, -, rfl⟩ := hT
    rfl
  have hrun : write_str collectStack 4 1 [] () [1, 2, 3, 4, 5] =
      some ([1, 2, 3, 4, 5], (), Except.ok ()) := by rfl
  exact ⟨hready, hR, hrun,
    write_str_delivers_exact collectStack (fun s _ => s) 2 hready hR
      4 1 [] () [1, 2, 3, 4, 5] [1, 2, 3, 4, 5] () hrun⟩

/-- Claim C2: if a `write_str` run returns `Err(e)`, the error and the
final state are exactly those of one underlying `send` invocation (at
some cursor `cf` inside the message), that invocation is the last `send`
call the run made, and the bytes delivered beforehand are exactly the
message prefix up to `cf`. -/
theorem write_str_error_stops (T : TcpClientStack S K E A B)
    (recv : S → K → List B)
    (hR : RecvReady T recv) (hW : RecvStay T recv) (hE : RecvStayErr T recv)
    (fo fi : Nat) (s : S) (k : K) (message : List B) (s' : S) (k' : K) (e : E)
    (h : write_str T fo fi s k message = some (s', k', Except.error e)) :
    ∃ cf s₀ k₀, cf < message.length ∧
      T.send s₀ k₀ (message.drop cf) = (s', k', NbRes.error e) ∧
      recv s' k' = recv s k ++ message.take cf ∧
      (writeStrLog T fo fi s k message).1.getLast? = some (message.drop cf) := by
  obtain ⟨cf, s₀, k₀, h1, h2, h3, h4, h5⟩ :=
    writeStrAux_error_spec T message recv hR hW hE fo fi 0 s k s' k' e h
  exact ⟨cf, s₀, k₀, h2, h3, by simpa using h4, h5⟩

/-- Witness for claim C2 on the concrete fake stack whose second `send`
call fails, run on the three-byte message 9, 8, 7. -/
theorem write_str_error_stops_witness :
    RecvReady okThenErrStack (fun s _ => s.2) ∧
    RecvStay okThenErrStack (fun s _ => s.2) ∧
    RecvStayErr okThenErrStack (fun s _ => s.2) ∧
    write_str okThenErrStack 3 1 (0, []) () [9, 8, 7] =
      some ((1, [9]), (), Except.error ()) ∧
    ∃ cf s₀ k₀, cf < ([9, 8, 7] : List Nat).length ∧
      okThenErrStack.send s₀ k₀ (([9, 8, 7] : List Nat).drop cf) =
        ((1, [9]), (), NbRes.error ()) ∧
      ([9] : List Nat) = [] ++ ([9, 8, 7] : List Nat).take cf ∧
      (writeStrLog okThenErrStack 3 1 (0, []) () [9, 8, 7]).1.getLast? =
        some (([9, 8, 7] : List Nat).drop cf) := by
  have hR : RecvReady okThenErrStack (fun s _ => s.2) := by
    intro s k buf s' k' n hT
    by_cases h0 : s.1 = 0
    · have hs : (okThenErrStack.send s k buf).1 = s' := by rw [hT]
      have hn : (okThenErrStack.send s k buf).2.2 = NbRes.ready n := by rw [hT]
      simp only [okThenErrStack, h0, if_true, NbRes.ready.injEq] at hn
      subst hn
      rw [← hs]
      simp [okThenErrStack, h0]
    · simp [okThenErrStack, h0] at hT
  have hW : RecvStay okThenErrStack (fun s _ => s.2) := by
    intro s k buf s' k' hT
    by_cases h0 : s.1 = 0 <;> simp [okThenErrStack, h0] at hT
  have hE : RecvStayErr okThenErrStack (fun s _ => s.2) := by
    intro s k buf s' k' e hT
    by_cases h0 : s.1 = 0
    · simp [okThenErrStack, h0] at hT
    · have hs : (okThenErrStack.send s k buf).1 = s' := by rw [hT]
      rw [← hs]
      simp [okThenErrStack, h0]
  have hrun : write_str okThenErrStack 3 1 (0, []) () [9, 8, 7] =
      some ((1, [9]), (), Except.error ()) := by rfl
  exact ⟨hR, hW, hE, hrun,
    write_str_error_stops okThenErrStack (fun s _ => s.2) hR hW hE
      3 1 (0, []) () [9, 8, 7] (1, [9]) () () hrun⟩

/-- Claim C3: provided every `nb::block!` round resolves after finitely
many WouldBlock results — to a `ready` count that is at least 1, or to an
error — the `write_str` loop terminates: some fuel makes the run return a
result. -/
theorem write_str_terminates (T : TcpClientStack S K E A B)
    (hfin : ∀ (s : S) (k : K) (buf : List B), ∃ f, blockSend T f s k buf ≠ none)
    (hpos : ∀ (s : S) (k : K) (buf : List B) (s' : S) (k' : K) (n : Nat),
      T.send s k buf = (s', k', NbRes.ready n) → 1 ≤ n)
    (s : S) (k : K) (message : List B) :
    ∃ fo fi, write_str T fo fi s k message ≠ none :=
  writeStrAux_term T message hfin hpos message.length 0 s k (by omega)

/-- Witness for claim C3 on the concrete stack that always accepts one
byte immediately. -/
theorem write_str_terminates_witness :
    (∀ (s k : Unit) (buf : List Nat), ∃ f, blockSend onesStack f s k buf ≠ none) ∧
    (∀ (s k : Unit) (buf : List Nat) (s' k' : Unit) (n : Nat),
      onesStack.send s k buf = (s', k', NbRes.ready n) → 1 ≤ n) ∧
    ∃ fo fi, write_str onesStack fo fi () () [3, 4] ≠ none := by
  have hfin : ∀ (s k : Unit) (buf : List Nat),
      ∃ f, blockSend onesStack f s k buf ≠ none := by
    intro s k buf
    exact ⟨1, by simp [blockSend, onesStack]⟩
  have hpos : ∀ (s k : Unit) (buf : List Nat) (s' k' : Unit) (n : Nat),
      onesStack.send s k buf = (s', k', NbRes.ready n) → 1 ≤ n := by
    intro s k buf s' k' n hT
    simp only [onesStack, Prod.mk.injEq, NbRes.ready.injEq] at hT
    obtain ⟨-, -, h1⟩ := hT
    omega
  exact ⟨hfin, hpos, write_str_terminates onesStack hfin hpos () () [3, 4]⟩

/-- Claim C4 counterexample: the adapter's `send` does not loop until the
entire buffer is written — on the stack that accepts one byte per call
and counts calls, one adapter `send` on a 2-byte buffer makes exactly one
underlying call (the counter goes 0 to 1) and returns `ready 1` with no
error, the buffer not fully written. -/
theorem adapter_send_short_write_cex :
    StackAndSocket.send shortStack 0 () [7, 8] = (1, (), NbRes.ready 1) ∧
    ¬ (([7, 8] : List Nat).length ≤ 1) := by
  constructor
  · rfl
  · decide

/-- Claim C4 amended: the adapter's `send` is a single forwarded
non-blocking send call and may return a short write; the block-until-
fully-written looping helper is the adapter's `write_str`, which loops
over the underlying send, advancing the cursor by each reported count,
until the entire buffer has been delivered or an error occurs. -/
theorem write_str_is_blocking_helper (T : TcpClientStack S K E A B)
    (recv : S → K → List B)
    (hready : AllReadyPos T) (hR : RecvReady T recv)
    (s : S) (k : K) (message : List B) :
    (∀ (s₀ : S) (k₀ : K) (buffer : List B),
      StackAndSocket.send T s₀ k₀ buffer = T.send s₀ k₀ buffer) ∧
    ∃ s' k', write_str T (message.length + 1) 1 s k message =
        some (s', k', Except.ok ()) ∧
      recv s' k' = recv s k ++ message := by
  refine ⟨fun _ _ _ => rfl, ?_⟩
  obtain ⟨s', k', h1, h2⟩ :=
    writeStrAux_allReadyPos T message recv hready hR message.length 0 s k (by omega)
  exact ⟨s', k', h1, by simpa using h2⟩

/-- Witness for the amended claim C4 on the concrete one-byte-per-call
collector stack and the message 4, 5. -/
theorem write_str_is_blocking_helper_witness :
    AllReadyPos takeOneStack ∧
    RecvReady takeOneStack (fun s _ => s) ∧
    ((∀ (s₀ : List Nat) (k₀ : Unit) (buffer : List Nat),
        StackAndSocket.send takeOneStack s₀ k₀ buffer =
          takeOneStack.send s₀ k₀ buffer) ∧
      ∃ s' k', write_str takeOneStack (([4, 5] : List Nat).length + 1) 1 [] () [4, 5] =
          some (s', k', Except.ok ()) ∧
        s' = ([] : List Nat) ++ [4, 5]) := by
  have hready : AllReadyPos takeOneStack := fun s k buf =>
    ⟨s ++ buf.take 1, k, 1, rfl, le_refl 1⟩
  have hR : RecvReady takeOneStack (fun s _ => s) := by
    intro s k buf s' k' n hT
    simp only [takeOneStack, Prod.mk.injEq, NbRes.ready.injEq] at hT
    obtain ⟨rfl, -, rfl⟩ := hT
    rfl
  exact ⟨hready, hR,
    write_str_is_blocking_helper takeOneStack (fun s _ => s) hready hR [] () [4, 5]⟩

/-- Claim C5: the blanket implementation of the stack interface for a
mutable borrow forwards every one of the six operations unchanged: on
every input it returns the same result, updated states included, as the
underlying stack's operation. -/
theorem refStack_forwards (T : TcpClientStack S K E A B) :
    (∀ s, (refStack T).socket s = T.socket s) ∧
    (∀ s k remote, (refStack T).connect s k remote = T.connect s k remote) ∧
    (∀ s k, (refStack T).is_connected s k = T.is_connected s k) ∧
    (∀ s k buffer, (refStack T).send s k buffer = T.send s k buffer) ∧
    (∀ s k buffer, (refStack T).receive s k buffer = T.receive s k buffer) ∧
    (∀ s k, (refStack T).close s k = T.close s k) :=
  ⟨fun _ => rfl, fun _ _ _ => rfl, fun _ _ => rfl, fun _ _ _ => rfl,
    fun _ _ _ => rfl, fun _ _ => rfl⟩

/-- Claim C6: `is_connected` never returns a WouldBlock outcome — its
result is a plain two-case value, either a boolean or an error, so a
would-block case is unrepresentable at the interface. -/
theorem is_connected_no_would_block (T : TcpClientStack S K E A B)
    (s : S) (k : K) :
    (∃ b, (T.is_connected s k).2 = Except.ok b) ∨
    (∃ e, (T.is_connected s k).2 = Except.error e) := by
  cases h : (T.is_connected s k).2 with
  | error e => exact Or.inr ⟨e, rfl⟩
  | ok b => exact Or.inl ⟨b, rfl⟩

/-- Claim C8 (spec-modelled): while one borrower holds the exclusive
borrow of the shared stack, a second borrow attempt deterministically
fails rather than silently interleaving; once the holder releases, the
next attempt succeeds. -/
theorem shared_borrow_exclusive {S : Type} (c c' : SharableStack S)
    (h : tryAcquire c = some c') :
    tryAcquire c' = none ∧ ∃ c'', tryAcquire (releaseBorrow c') = some c'' := by
  unfold tryAcquire at h
  by_cases hb : c.borrowed
  · simp [hb] at h
  · rw [if_neg hb] at h
    have h' := Option.some.inj h
    subst h'
    constructor
    · simp [tryAcquire]
    · exact ⟨{ c with borrowed := true }, by simp [tryAcquire, releaseBorrow]⟩

/-- Witness for claim C8 on a concrete shared cell holding the stack
state 0. -/
theorem shared_borrow_exclusive_witness :
    tryAcquire (⟨0, false⟩ : SharableStack Nat) = some ⟨0, true⟩ ∧
    (tryAcquire (⟨0, true⟩ : SharableStack Nat) = none ∧
      ∃ c'', tryAcquire (releaseBorrow (⟨0, true⟩ : SharableStack Nat)) = some c'') :=
  ⟨rfl, shared_borrow_exclusive ⟨0, false⟩ ⟨0, true⟩ rfl⟩

/-- Claim C9: whatever the underlying stack does — including reporting a
count larger than the remaining bytes — every slice `message[cursor..]`
the write loop evaluates and passes to `send` has its cursor strictly
inside the message, because the loop guard runs before each call; and the
instrumented run computes exactly the `write_str` outcome. -/
theorem write_str_slices_in_bounds (T : TcpClientStack S K E A B)
    (fo fi : Nat) (s : S) (k : K) (message buf : List B)
    (h : buf ∈ (writeStrLog T fo fi s k message).1) :
    (∃ cf, cf < message.length ∧ buf = message.drop cf) ∧
    (writeStrLog T fo fi s k message).2 = write_str T fo fi s k message :=
  ⟨writeStrLogAux_mem T message fo fi 0 s k buf h,
    writeStrLogAux_snd T message fo fi 0 s k⟩

/-- Witness for claim C9 on the concrete stack that overshoots, reporting
5 bytes written on the three-byte message 1, 2, 3. -/
theorem write_str_slices_in_bounds_witness :
    ([1, 2, 3] : List Nat) ∈ (writeStrLog overshootStack 2 1 () () [1, 2, 3]).1 ∧
    ((∃ cf, cf < ([1, 2, 3] : List Nat).length ∧
        ([1, 2, 3] : List Nat) = ([1, 2, 3] : List Nat).drop cf) ∧
      (writeStrLog overshootStack 2 1 () () [1, 2, 3]).2 =
        write_str overshootStack 2 1 () () [1, 2, 3]) := by
  have hlog : (writeStrLog overshootStack 2 1 () () [1, 2, 3]).1 = [[1, 2, 3]] := rfl
  have hmem : ([1, 2, 3] : List Nat) ∈
      (writeStrLog overshootStack 2 1 () () [1, 2, 3]).1 := by
    rw [hlog]
    exact List.mem_singleton_self _
  exact ⟨hmem,
    write_str_slices_in_bounds overshootStack 2 1 () () [1, 2, 3] [1, 2, 3] hmem⟩

/-- Claim C10: calling `write_str` with the empty message returns
`Ok(())` immediately with any positive fuel, leaving the stack and socket
state unchanged and making no underlying `send` call at all. -/
theorem write_str_empty_message (T : TcpClientStack S K E A B) (fo fi : Nat)
    (s : S) (k : K) :
    write_str T (fo + 1) fi s k ([] : List B) = some (s, k, Except.ok ()) ∧
    (writeStrLog T (fo + 1) fi s k ([] : List B)).1 = [] := by
  constructor
  · simp [write_str, writeStrAux]
  · simp [writeStrLog, writeStrLogAux]

end EmbeddedNal
